import Mathlib

/-!
Verification of the gene-model-release identification and spatial-index
construction code of the cellBrowser `genes.py` module, shallowly embedded
in Lean.  Python strings are modelled as `List Char`, Python sets as lists
with membership semantics, Python dicts as insertion-ordered association
lists, and fallible operations return `Except`/`Option`.
-/

/-- Python strings are modelled as lists of characters. -/
abbrev PyStr := List Char

/-- A boolean relation that behaves like a linear order:
transitive, total and antisymmetric.  Python's tuple/string comparisons
used by `list.sort` are of this kind. -/
structure IsLinB {α : Type} (le : α → α → Bool) : Prop where
  trans : ∀ a b c, le a b = true → le b c = true → le a c = true
  total : ∀ a b, le a b = true ∨ le b a = true
  antisymm : ∀ a b, le a b = true → le b a = true → a = b

theorem IsLinB.refl {α : Type} {le : α → α → Bool} (h : IsLinB le) (a : α) :
    le a a = true := by
  rcases h.total a a with h1 | h1 <;> exact h1

/-- Lexicographic comparison of pairs, as Python compares tuples:
the first components decide unless they are equal. -/
def pairLe {α β : Type} (la : α → α → Bool) (lb : β → β → Bool)
    (x y : α × β) : Bool :=
  if la x.1 y.1 then (if la y.1 x.1 then lb x.2 y.2 else true) else false

theorem pairLe_fst {α β : Type} {la : α → α → Bool} {lb : β → β → Bool}
    {x y : α × β} (h : pairLe la lb x y = true) : la x.1 y.1 = true := by
  unfold pairLe at h
  by_cases h1 : la x.1 y.1 = true
  · exact h1
  · simp [h1] at h

theorem pairLe_isLinB {α β : Type} {la : α → α → Bool} {lb : β → β → Bool}
    (ha : IsLinB la) (hb : IsLinB lb) : IsLinB (pairLe la lb) := by
  constructor
  · intro x y z hxy hyz
    have h1 := pairLe_fst hxy
    have h2 := pairLe_fst hyz
    have h13 := ha.trans _ _ _ h1 h2
    unfold pairLe at hxy hyz ⊢
    simp only [h1, h2, h13, if_true] at hxy hyz ⊢
    by_cases h31 : la z.1 x.1 = true
    · have h21 : la y.1 x.1 = true := ha.trans _ _ _ h2 h31
      have h32 : la z.1 y.1 = true := ha.trans _ _ _ h31 h1
      simp only [h21, h32, h31, if_true] at hxy hyz ⊢
      exact hb.trans _ _ _ hxy hyz
    · simp [h31]
  · intro x y
    rcases ha.total x.1 y.1 with h1 | h1
    · by_cases h2 : la y.1 x.1 = true
      · rcases hb.total x.2 y.2 with h3 | h3
        · left; unfold pairLe; simp [h1, h2, h3]
        · right; unfold pairLe; simp [h1, h2, h3]
      · left; unfold pairLe; simp [h1, h2]
    · by_cases h2 : la x.1 y.1 = true
      · rcases hb.total x.2 y.2 with h3 | h3
        · left; unfold pairLe; simp [h1, h2, h3]
        · right; unfold pairLe; simp [h1, h2, h3]
      · right; unfold pairLe; simp [h1, h2]
  · intro x y hxy hyx
    have h1 := pairLe_fst hxy
    have h2 := pairLe_fst hyx
    have hfst : x.1 = y.1 := ha.antisymm _ _ h1 h2
    unfold pairLe at hxy hyx
    simp only [h1, h2, if_true] at hxy hyx
    have hsnd : x.2 = y.2 := hb.antisymm _ _ hxy hyx
    exact Prod.ext hfst hsnd

/-- Lexicographic comparison of lists, as Python compares tuples/lists and
strings: elementwise, the first differing position decides, a strict
prefix is smaller. -/
def listLexLe {α : Type} (le : α → α → Bool) : List α → List α → Bool
  | [], _ => true
  | _ :: _, [] => false
  | a :: as, b :: bs =>
    if le a b then (if le b a then listLexLe le as bs else true) else false

theorem listLexLe_isLinB {α : Type} {le : α → α → Bool} (h : IsLinB le) :
    IsLinB (listLexLe le) := by
  constructor
  · intro x
    induction x with
    | nil => intro y z _ _; rfl
    | cons a as ih =>
      intro y z hxy hyz
      cases y with
      | nil => simp [listLexLe] at hxy
      | cons b bs =>
        cases z with
        | nil => simp [listLexLe] at hyz
        | cons c cs =>
          unfold listLexLe at hxy hyz ⊢
          by_cases h1 : le a b = true
          · by_cases h2 : le b c = true
            · have h3 : le a c = true := h.trans _ _ _ h1 h2
              simp only [h1, h2, h3, if_true] at hxy hyz ⊢
              by_cases h4 : le c a = true
              · have h5 : le b a = true := h.trans _ _ _ h2 h4
                have h6 : le c b = true := h.trans _ _ _ h4 h1
                simp only [h5, h6, h4, if_true] at hxy hyz ⊢
                exact ih bs cs hxy hyz
              · simp [h4]
            · simp [h2] at hyz
          · simp [h1] at hxy
  · intro x
    induction x with
    | nil => intro y; left; rfl
    | cons a as ih =>
      intro y
      cases y with
      | nil => right; rfl
      | cons b bs =>
        unfold listLexLe
        rcases h.total a b with h1 | h1
        · by_cases h2 : le b a = true
          · rcases ih bs with h3 | h3
            · left; simp [h1, h2, h3]
            · right; simp [h1, h2, h3]
          · left; simp [h1, h2]
        · by_cases h2 : le a b = true
          · rcases ih bs with h3 | h3
            · left; simp [h1, h2, h3]
            · right; simp [h1, h2, h3]
          · right; simp [h1, h2]
  · intro x
    induction x with
    | nil =>
      intro y hxy hyx
      cases y with
      | nil => rfl
      | cons b bs => simp [listLexLe] at hyx
    | cons a as ih =>
      intro y hxy hyx
      cases y with
      | nil => simp [listLexLe] at hxy
      | cons b bs =>
        unfold listLexLe at hxy hyx
        have h1 : le a b = true := by
          by_cases h1 : le a b = true
          · exact h1
          · simp [h1] at hxy
        have h2 : le b a = true := by
          by_cases h2 : le b a = true
          · exact h2
          · simp [h2] at hyx
        have hab : a = b := h.antisymm _ _ h1 h2
        simp only [h1, h2, if_true] at hxy hyx
        rw [hab, ih bs hxy hyx]

/-- Comparison on `Nat` as a boolean relation. -/
def natLe : Nat → Nat → Bool := fun a b => decide (a ≤ b)

/-- Comparison on `Int` as a boolean relation. -/
def intLe : Int → Int → Bool := fun a b => decide (a ≤ b)

/-- Comparison on `Char` by code point, as Python compares characters. -/
def charLe : Char → Char → Bool := fun a b => decide (a ≤ b)

/-- Python string comparison: lexicographic by code point. -/
def pyStrLe : PyStr → PyStr → Bool := listLexLe charLe

theorem natLe_isLinB : IsLinB natLe := by
  constructor
  · intro a b c h1 h2
    simp only [natLe, decide_eq_true_eq] at *
    omega
  · intro a b
    simp only [natLe, decide_eq_true_eq]
    omega
  · intro a b h1 h2
    simp only [natLe, decide_eq_true_eq] at *
    omega

theorem intLe_isLinB : IsLinB intLe := by
  constructor
  · intro a b c h1 h2
    simp only [intLe, decide_eq_true_eq] at *
    omega
  · intro a b
    simp only [intLe, decide_eq_true_eq]
    omega
  · intro a b h1 h2
    simp only [intLe, decide_eq_true_eq] at *
    omega

theorem charLe_isLinB : IsLinB charLe := by
  constructor
  · intro a b c h1 h2
    simp only [charLe, decide_eq_true_eq] at *
    exact le_trans h1 h2
  · intro a b
    simp only [charLe, decide_eq_true_eq]
    exact le_total a b
  · intro a b h1 h2
    simp only [charLe, decide_eq_true_eq] at *
    exact le_antisymm h1 h2

theorem pyStrLe_isLinB : IsLinB pyStrLe := listLexLe_isLinB charLe_isLinB

/-- Insert an element into a sorted list, keeping earlier elements first on
ties (the stability Python's sort guarantees). -/
def insertLe {α : Type} (le : α → α → Bool) (a : α) : List α → List α
  | [] => [a]
  | b :: bs => if le a b then a :: b :: bs else b :: insertLe le a bs

/-- Model of Python's `list.sort()` as a stable insertion sort.  For the
antisymmetric total orders used in this file the result agrees with any
correct sort, in particular with CPython's timsort. -/
def pySort {α : Type} (le : α → α → Bool) : List α → List α
  | [] => []
  | a :: as => insertLe le a (pySort le as)

theorem insertLe_perm {α : Type} (le : α → α → Bool) (a : α) (l : List α) :
    List.Perm (insertLe le a l) (a :: l) := by
  induction l with
  | nil => exact List.Perm.refl _
  | cons b bs ih =>
    unfold insertLe
    by_cases h : le a b = true
    · simp only [h, if_true]
      exact List.Perm.refl _
    · simp only [h, if_false]
      exact (ih.cons b).trans (List.Perm.swap a b bs)

theorem pySort_perm {α : Type} (le : α → α → Bool) (l : List α) :
    List.Perm (pySort le l) l := by
  induction l with
  | nil => exact List.Perm.refl _
  | cons a as ih =>
    exact (insertLe_perm le a (pySort le as)).trans (ih.cons a)

theorem insertLe_pairwise {α : Type} {le : α → α → Bool} (h : IsLinB le)
    (a : α) (l : List α) (hl : l.Pairwise (fun x y => le x y = true)) :
    (insertLe le a l).Pairwise (fun x y => le x y = true) := by
  induction l with
  | nil => simp [insertLe]
  | cons b bs ih =>
    rcases List.pairwise_cons.mp hl with ⟨hb, hbs⟩
    unfold insertLe
    by_cases hab : le a b = true
    · simp only [hab, if_true]
      refine List.pairwise_cons.mpr ⟨?_, hl⟩
      intro x hx
      rcases List.mem_cons.mp hx with hx | hx
      · exact hx ▸ hab
      · exact h.trans _ _ _ hab (hb x hx)
    · have hba : le b a = true := by
        rcases h.total a b with h1 | h1
        · exact absurd h1 hab
        · exact h1
      simp only [hab, if_false]
      refine List.pairwise_cons.mpr ⟨?_, ih hbs⟩
      intro x hx
      rcases List.mem_cons.mp ((insertLe_perm le a bs).mem_iff.mp hx) with hx | hx
      · rw [hx]; exact hba
      · exact hb x hx

theorem pySort_pairwise {α : Type} {le : α → α → Bool} (h : IsLinB le)
    (l : List α) : (pySort le l).Pairwise (fun x y => le x y = true) := by
  induction l with
  | nil => simp [pySort]
  | cons a as ih => exact insertLe_pairwise h a (pySort le as) ih

theorem pySort_head_mem {α : Type} {le : α → α → Bool} {l : List α} {m : α}
    (hm : (pySort le l).head? = some m) : m ∈ l := by
  refine (pySort_perm le l).mem_iff.mp ?_
  cases hs : pySort le l with
  | nil => rw [hs] at hm; simp at hm
  | cons x xs =>
    rw [hs] at hm
    simp only [List.head?_cons, Option.some.injEq] at hm
    rw [← hm]
    exact List.mem_cons_self x xs

theorem pySort_head_le {α : Type} {le : α → α → Bool} (h : IsLinB le)
    {l : List α} {m : α} (hm : (pySort le l).head? = some m) :
    ∀ x ∈ l, le m x = true := by
  intro x hx
  have hx2 : x ∈ pySort le l := (pySort_perm le l).mem_iff.mpr hx
  cases hs : pySort le l with
  | nil => rw [hs] at hx2; simp at hx2
  | cons y ys =>
    rw [hs] at hm hx2
    simp only [List.head?_cons, Option.some.injEq] at hm
    have hp := pySort_pairwise h l
    rw [hs] at hp
    rcases List.pairwise_cons.mp hp with ⟨hhead, _⟩
    rcases List.mem_cons.mp hx2 with hx2 | hx2
    · rw [← hm, hx2]
      exact h.refl y
    · exact hm ▸ hhead x hx2

theorem pySort_head_eq {α : Type} {le : α → α → Bool} (h : IsLinB le)
    {l : List α} {m : α} (hmem : m ∈ l) (hmin : ∀ x ∈ l, le m x = true) :
    (pySort le l).head? = some m := by
  cases hs : pySort le l with
  | nil =>
    have hnil : l = [] := by
      have := pySort_perm le l
      rw [hs] at this
      exact this.symm.eq_nil
    rw [hnil] at hmem
    simp at hmem
  | cons y ys =>
    have hy : (pySort le l).head? = some y := by rw [hs]; rfl
    have h1 : le y m = true := pySort_head_le h hy m hmem
    have h2 : le m y = true := hmin y (pySort_head_mem hy)
    simp [h.antisymm _ _ h1 h2]

/-- Python set difference `a - b` on list-modelled sets. -/
def setDiff (a b : List PyStr) : List PyStr :=
  a.filter (fun x => !(b.contains x))

theorem mem_setDiff {a b : List PyStr} {x : PyStr} :
    x ∈ setDiff a b ↔ x ∈ a ∧ x ∉ b := by
  simp [setDiff, List.mem_filter]

/-- The inner loop of `keepOnlyUnique`: starting from release `key1`'s own
set `origVals`, subtract every other release's set, looking each one up in
the full dict `dictSet` as the Python code does. -/
def subtractOthers (dictSet : List (PyStr × List PyStr)) (key1 : PyStr)
    (origVals : List PyStr) : List PyStr :=
  dictSet.foldl
    (fun vals p =>
      if p.1 == key1 then vals
      else setDiff vals ((List.lookup p.1 dictSet).getD [])) origVals

/-- Model of `keepOnlyUnique` (genes.py:264-280), first return value: for
each release keep only the elements appearing in no other release's set. -/
def keepOnlyUnique (dictSet : List (PyStr × List PyStr)) :
    List (PyStr × List PyStr) :=
  dictSet.map (fun p => (p.1, subtractOthers dictSet p.1 p.2))

/-- Model of the diagnostic second return value of `keepOnlyUnique`:
`set.intersection(*setList)`.  Python raises on an empty dict, hence
`Option`; the count is the number of distinct common elements. -/
def allCommonCount (dictSet : List (PyStr × List PyStr)) : Option Nat :=
  match dictSet.map Prod.snd with
  | [] => none
  | v :: vs =>
    some ((vs.foldl (fun acc s => acc.filter (fun x => s.contains x)) v).dedup.length)

theorem mem_subtractOthers_aux (d : List (PyStr × List PyStr)) (key1 : PyStr)
    (l : List (PyStr × List PyStr)) (vals : List PyStr) (x : PyStr) :
    (x ∈ l.foldl
      (fun vals p =>
        if p.1 == key1 then vals
        else setDiff vals ((List.lookup p.1 d).getD [])) vals) ↔
      (x ∈ vals ∧ ∀ p ∈ l, p.1 ≠ key1 → x ∉ (List.lookup p.1 d).getD []) := by
  induction l generalizing vals with
  | nil => simp
  | cons q qs ih =>
    simp only [List.foldl_cons]
    by_cases hq : q.1 == key1
    · have hq2 : q.1 = key1 := by
        exact eq_of_beq hq
      rw [if_pos hq, ih]
      constructor
      · rintro ⟨hv, hrest⟩
        refine ⟨hv, ?_⟩
        intro p hp hpk
        rcases List.mem_cons.mp hp with hp | hp
        · exact absurd (hp ▸ hq2) hpk
        · exact hrest p hp hpk
      · rintro ⟨hv, hrest⟩
        exact ⟨hv, fun p hp hpk => hrest p (List.mem_cons_of_mem q hp) hpk⟩
    · have hq2 : ¬(q.1 = key1) := by
        intro he
        exact hq (beq_of_eq he)
      rw [if_neg hq, ih]
      constructor
      · rintro ⟨hv, hrest⟩
        rcases mem_setDiff.mp hv with ⟨hv1, hv2⟩
        refine ⟨hv1, ?_⟩
        intro p hp hpk
        rcases List.mem_cons.mp hp with hp | hp
        · rw [hp]
          exact hv2
        · exact hrest p hp hpk
      · rintro ⟨hv, hrest⟩
        refine ⟨mem_setDiff.mpr ⟨hv, hrest q (List.mem_cons_self q qs) hq2⟩, ?_⟩
        intro p hp hpk
        exact hrest p (List.mem_cons_of_mem q hp) hpk

theorem lookup_eq_of_mem {β : Type} (d : List (PyStr × β))
    (hnd : (d.map Prod.fst).Nodup) (k : PyStr) (v : β) (h : (k, v) ∈ d) :
    List.lookup k d = some v := by
  induction d with
  | nil => simp at h
  | cons q qs ih =>
    simp only [List.map_cons, List.nodup_cons] at hnd
    rcases List.mem_cons.mp h with h | h
    · rw [← h]
      simp [List.lookup]
    · have hk : k ∈ qs.map Prod.fst := by
        have : (k, v).1 ∈ qs.map Prod.fst := List.mem_map_of_mem Prod.fst h
        exact this
      have hne : ¬(k == q.1) := by
        intro he
        exact hnd.1 (eq_of_beq he ▸ hk)
      rw [List.lookup]
      simp only [hne]
      exact ih hnd.2 h

/-- C1: for every release→set mapping (with distinct release names, as in a
Python dict), `keepOnlyUnique` maps each release R with input set S to the
set of identifiers that are in S and in no other release's input set. -/
theorem keepOnlyUnique_unique_iff (d : List (PyStr × List PyStr))
    (hnd : (d.map Prod.fst).Nodup) (k : PyStr) (S : List PyStr)
    (hmem : (k, S) ∈ d) :
    ∃ U, (k, U) ∈ keepOnlyUnique d ∧
      ∀ x, x ∈ U ↔ (x ∈ S ∧ ∀ p ∈ d, p.1 ≠ k → x ∉ p.2) := by
  refine ⟨subtractOthers d k S, ?_, ?_⟩
  · have := List.mem_map_of_mem
      (fun p : PyStr × List PyStr => (p.1, subtractOthers d p.1 p.2)) hmem
    exact this
  · intro x
    unfold subtractOthers
    rw [mem_subtractOthers_aux]
    constructor
    · rintro ⟨hx, hall⟩
      refine ⟨hx, ?_⟩
      intro p hp hpk
      have hlook : List.lookup p.1 d = some p.2 := by
        have := lookup_eq_of_mem d hnd p.1 p.2 (by rw [Prod.mk.eta]; exact hp)
        exact this
      have := hall p hp hpk
      rwa [hlook] at this
    · rintro ⟨hx, hall⟩
      refine ⟨hx, ?_⟩
      intro p hp hpk
      have hlook : List.lookup p.1 d = some p.2 := by
        have := lookup_eq_of_mem d hnd p.1 p.2 (by rw [Prod.mk.eta]; exact hp)
        exact this
      rw [hlook]
      exact hall p hp hpk

/-- C2: for every mapping with at least two releases (distinct names), the
unique sets produced by `keepOnlyUnique` for two distinct releases are
disjoint. -/
theorem keepOnlyUnique_disjoint (d : List (PyStr × List PyStr))
    (hlen : 2 ≤ d.length) (hnd : (d.map Prod.fst).Nodup)
    (k1 k2 : PyStr) (U1 U2 : List PyStr)
    (h1 : (k1, U1) ∈ keepOnlyUnique d) (h2 : (k2, U2) ∈ keepOnlyUnique d)
    (hne : k1 ≠ k2) : ∀ x, x ∈ U1 → x ∉ U2 := by
  intro x hx1 hx2
  rcases List.mem_map.mp h1 with ⟨p1, hp1, he1⟩
  rcases List.mem_map.mp h2 with ⟨p2, hp2, he2⟩
  have hk1 : p1.1 = k1 := congrArg Prod.fst he1
  have hk2 : p2.1 = k2 := congrArg Prod.fst he2
  have hU1 : U1 = subtractOthers d p1.1 p1.2 := (congrArg Prod.snd he1).symm
  have hU2 : U2 = subtractOthers d p2.1 p2.2 := (congrArg Prod.snd he2).symm
  rw [hU1] at hx1
  rw [hU2] at hx2
  unfold subtractOthers at hx1 hx2
  rw [mem_subtractOthers_aux] at hx1 hx2
  rcases hx1 with ⟨_, hall1⟩
  rcases hx2 with ⟨hx2mem, _⟩
  have hlook : List.lookup p2.1 d = some p2.2 := by
    have := lookup_eq_of_mem d hnd p2.1 p2.2 (by rw [Prod.mk.eta]; exact hp2)
    exact this
  have := hall1 p2 hp2 (by rw [hk1, hk2]; exact fun he => hne he.symm)
  rw [hlook] at this
  exact this hx2mem


/-- Concrete two-release example mapping used by several witnesses:
identifier B is shared, A is unique to r1, C is unique to r2. -/
def exDict1 : List (PyStr × List PyStr) :=
  [("r1".toList, ["A".toList, "B".toList]),
   ("r2".toList, ["B".toList, "C".toList])]

/-- C1 witness: a concrete two-release instance of
`keepOnlyUnique_unique_iff`. -/
theorem keepOnlyUnique_unique_iff_witness :
    ((exDict1.map Prod.fst).Nodup ∧
     ("r1".toList, ["A".toList, "B".toList]) ∈ exDict1) ∧
    (∃ U, ("r1".toList, U) ∈ keepOnlyUnique exDict1 ∧
      ∀ x, x ∈ U ↔ (x ∈ ["A".toList, "B".toList] ∧
        ∀ p ∈ exDict1, p.1 ≠ "r1".toList → x ∉ p.2)) :=
  ⟨⟨by decide, by decide⟩,
    keepOnlyUnique_unique_iff exDict1 (by decide) ("r1".toList)
      ["A".toList, "B".toList] (by decide)⟩

/-- C2 witness: concrete disjointness instance with two releases. -/
theorem keepOnlyUnique_disjoint_witness :
    (2 ≤ exDict1.length ∧ (exDict1.map Prod.fst).Nodup ∧
     ("r1".toList, ["A".toList]) ∈ keepOnlyUnique exDict1 ∧
     ("r2".toList, ["C".toList]) ∈ keepOnlyUnique exDict1 ∧
     "r1".toList ≠ "r2".toList) ∧
    (∀ x, x ∈ ["A".toList] → x ∉ ["C".toList]) :=
  ⟨⟨by decide, by decide, by decide, by decide, by decide⟩,
    keepOnlyUnique_disjoint exDict1 (by decide) (by decide)
      ("r1".toList) ("r2".toList) ["A".toList] ["C".toList]
      (by decide) (by decide) (by decide)⟩

/-- Python `str.upper()`, restricted to the ASCII case mapping of the
identifiers this code handles. -/
def pyUpper (s : PyStr) : PyStr := s.map Char.toUpper

/-- Python `str.startswith(pre)`. -/
def pyStartsWith (s pre : PyStr) : Bool := s.take pre.length == pre

/-- Model of `guessGeneIdType` (genes.py:66-76): classify the organism and
identifier type from one element of the input set; `list(genes)[0]` raises
on an empty set, hence `Option`. -/
def guessGeneIdType (genes : List PyStr) : Option (String × String) :=
  match genes with
  | [] => none
  | gene1 :: _ =>
    if pyStartsWith gene1 "ENSG".toList then some ("human", "ids")
    else if pyStartsWith gene1 "ENSMUS".toList then some ("mouse", "ids")
    else if pyUpper gene1 == gene1 then some ("human", "syms")
    else some ("mouse", "syms")

/-- C6: on a non-empty input the classifier inspects the first element: the
human-gene prefix gives (human, ids), else the mouse-gene prefix gives
(mouse, ids), else an entirely-uppercase token gives (human, syms), and
anything else gives (mouse, syms). -/
theorem guessGeneIdType_cases (genes : List PyStr) (gene1 : PyStr)
    (rest : List PyStr) (h : genes = gene1 :: rest) :
    (pyStartsWith gene1 "ENSG".toList = true →
      guessGeneIdType genes = some ("human", "ids")) ∧
    (pyStartsWith gene1 "ENSG".toList = false →
      pyStartsWith gene1 "ENSMUS".toList = true →
      guessGeneIdType genes = some ("mouse", "ids")) ∧
    (pyStartsWith gene1 "ENSG".toList = false →
      pyStartsWith gene1 "ENSMUS".toList = false →
      pyUpper gene1 = gene1 → guessGeneIdType genes = some ("human", "syms")) ∧
    (pyStartsWith gene1 "ENSG".toList = false →
      pyStartsWith gene1 "ENSMUS".toList = false →
      pyUpper gene1 ≠ gene1 → guessGeneIdType genes = some ("mouse", "syms")) := by
  subst h
  refine ⟨?_, ?_, ?_, ?_⟩
  · intro h1
    have h1' : pyStartsWith gene1 ['E', 'N', 'S', 'G'] = true := h1
    simp [guessGeneIdType, h1']
  · intro h1 h2
    have h1' : pyStartsWith gene1 ['E', 'N', 'S', 'G'] = false := h1
    have h2' : pyStartsWith gene1 ['E', 'N', 'S', 'M', 'U', 'S'] = true := h2
    simp [guessGeneIdType, h1', h2']
  · intro h1 h2 h3
    have h1' : pyStartsWith gene1 ['E', 'N', 'S', 'G'] = false := h1
    have h2' : pyStartsWith gene1 ['E', 'N', 'S', 'M', 'U', 'S'] = false := h2
    simp [guessGeneIdType, h1', h2', h3]
  · intro h1 h2 h3
    have h1' : pyStartsWith gene1 ['E', 'N', 'S', 'G'] = false := h1
    have h2' : pyStartsWith gene1 ['E', 'N', 'S', 'M', 'U', 'S'] = false := h2
    simp [guessGeneIdType, h1', h2', h3]

/-- C6 witness: concrete classification of a human Ensembl gene ID. -/
theorem guessGeneIdType_cases_witness :
    (["ENSG00000141510".toList] = "ENSG00000141510".toList :: []) ∧
    (pyStartsWith "ENSG00000141510".toList "ENSG".toList = true →
      guessGeneIdType ["ENSG00000141510".toList] = some ("human", "ids")) :=
  ⟨rfl, (guessGeneIdType_cases ["ENSG00000141510".toList]
    "ENSG00000141510".toList [] rfl).1⟩

/-- Modelled from the spec: `splitOnce` and `sepForFile` are imported from
the cellbrowser module, which is not part of this repository snapshot.
Per the spec the identifier is the input file's first separator-delimited
column, so `splitOnceHead sep s` is `splitOnce(s, sep)[0]`: the text
before the first occurrence of the separator (the whole string when the
separator is absent); the separator itself is a parameter. -/
def splitOnceHead (sep : Char) (s : PyStr) : PyStr :=
  s.takeWhile (fun c => !(c == sep))

/-- Python `str.strip(c)` for a single character: drop it from both ends. -/
def pyStripChar (c : Char) (s : PyStr) : PyStr :=
  ((s.dropWhile (fun x => x == c)).reverse.dropWhile (fun x => x == c)).reverse

/-- Python `str.strip()` with no argument: drop whitespace from both ends
(ASCII whitespace in this model). -/
def pyStripWs (s : PyStr) : PyStr :=
  ((s.dropWhile Char.isWhitespace).reverse.dropWhile Char.isWhitespace).reverse

/-- Per-line identifier extraction of `parseGenes` (genes.py:88-90):
`splitOnce(line[:50], sep)[0]`, then strip "\n", "\r" and surrounding
whitespace, then `.split('.')[0].split('|')[0]`. -/
def extractGeneId (sep : Char) (line : PyStr) : PyStr :=
  splitOnceHead '|' (splitOnceHead '.'
    (pyStripWs (pyStripChar '\r' (pyStripChar '\n'
      (splitOnceHead sep (line.take 50))))))

/-- Python `set.add` on an insertion-ordered list model of a set. -/
def setAdd (s : List PyStr) (x : PyStr) : List PyStr :=
  if s.contains x then s else s ++ [x]

/-- Model of `parseGenes` (genes.py:78-92): skip the header line, extract
one identifier per remaining line and accumulate them into a set. -/
def parseGenes (sep : Char) (lines : List PyStr) : List PyStr :=
  (lines.drop 1).foldl
    (fun fileGenes line => setAdd fileGenes (extractGeneId sep line)) []

/-- C10: the extraction only looks at the first 50 characters of a line —
two lines agreeing on their first 50 characters yield the same identifier,
and a line yields the same identifier as its own 50-character truncation. -/
theorem extractGeneId_first50 (sep : Char) (l1 l2 : PyStr)
    (h : l1.take 50 = l2.take 50) :
    extractGeneId sep l1 = extractGeneId sep l2 ∧
    extractGeneId sep l1 = extractGeneId sep (l1.take 50) := by
  constructor
  · simp only [extractGeneId, h]
  · simp only [extractGeneId, List.take_take, Nat.min_self]

/-- C10 witness: two tab-separated lines that agree on their first 50
characters (they differ at position 54) yield the same identifier. -/
theorem extractGeneId_first50_witness :
    ("GENEID000001\tsample1\tsample2\tsample3\tsample4\tsamp5XXXX".toList.take 50 =
     "GENEID000001\tsample1\tsample2\tsample3\tsample4\tsamp5YYYY".toList.take 50) ∧
    (extractGeneId '\t'
        "GENEID000001\tsample1\tsample2\tsample3\tsample4\tsamp5XXXX".toList =
      extractGeneId '\t'
        "GENEID000001\tsample1\tsample2\tsample3\tsample4\tsamp5YYYY".toList ∧
     extractGeneId '\t'
        "GENEID000001\tsample1\tsample2\tsample3\tsample4\tsamp5XXXX".toList =
      extractGeneId '\t'
        ("GENEID000001\tsample1\tsample2\tsample3\tsample4\tsamp5XXXX".toList.take 50)) :=
  ⟨by decide, extractGeneId_first50 '\t' _ _ (by decide)⟩

theorem IsLinB.flip {α : Type} {le : α → α → Bool} (h : IsLinB le) :
    IsLinB (fun a b => le b a) := by
  constructor
  · intro a b c h1 h2
    exact h.trans c b a h2 h1
  · intro a b
    rcases h.total b a with h1 | h1
    · left; exact h1
    · right; exact h1
  · intro a b h1 h2
    exact h.antisymm a b h2 h1

theorem nodupKeys_val_eq {β : Type} (d : List (PyStr × β))
    (hnd : (d.map Prod.fst).Nodup) (k : PyStr) (v w : β)
    (h1 : (k, v) ∈ d) (h2 : (k, w) ∈ d) : v = w := by
  have e1 := lookup_eq_of_mem d hnd k v h1
  have e2 := lookup_eq_of_mem d hnd k w h2
  rw [e1] at e2
  exact Option.some.inj e2

/-- Python `fileGenes.intersection(uniqGenes)` as used by
`guessGencodeVersion`: the members of the input set occurring in the
release's unique list. -/
def interList (fileGenes uniqGenes : List PyStr) : List PyStr :=
  fileGenes.filter (fun g => uniqGenes.contains g)

/-- Comparison of `(count, version)` pairs as Python compares these tuples. -/
def diffLe : (Nat × PyStr) → (Nat × PyStr) → Bool := pairLe natLe pyStrLe

theorem diffLe_isLinB : IsLinB diffLe := pairLe_isLinB natLe_isLinB pyStrLe_isLinB

/-- The `diffs` list built by `guessGencodeVersion` (genes.py:97-104): one
`(intersection size, version)` pair per release, in table order. -/
def diffsOf (fileGenes : List PyStr) (signGenes : List (PyStr × List PyStr)) :
    List (Nat × PyStr) :=
  signGenes.map (fun p => ((interList fileGenes p.2).length, p.1))

/-- Model of `guessGencodeVersion` (genes.py:94-108): sort the pairs in
descending Python tuple order (`diffs.sort(reverse=True)`) and return the
version of the first pair; `diffs[0]` raises on an empty table, hence
`Option`. -/
def guessGencodeVersion (fileGenes : List PyStr)
    (signGenes : List (PyStr × List PyStr)) : Option PyStr :=
  ((pySort (fun a b => diffLe b a) (diffsOf fileGenes signGenes)).head?).map
    Prod.snd

/-- C4 (amended): the guesser always returns a release whose intersection
count with the input is maximal over the table; and when the input set is
exactly release R's unique set, that set is non-empty, and the input
avoids every other release's unique set, the guesser returns R.  (As
literally stated the claim fails when R's unique set is empty; see the
counterexample.) -/
theorem guessGencodeVersion_spec (fileGenes : List PyStr)
    (signGenes : List (PyStr × List PyStr)) :
    (signGenes ≠ [] → ∃ c bestVersion,
        guessGencodeVersion fileGenes signGenes = some bestVersion ∧
        (c, bestVersion) ∈ diffsOf fileGenes signGenes ∧
        ∀ p ∈ diffsOf fileGenes signGenes, p.1 ≤ c) ∧
    (∀ R S, (signGenes.map Prod.fst).Nodup → (R, S) ∈ signGenes → S ≠ [] →
      (∀ x, x ∈ fileGenes ↔ x ∈ S) →
      (∀ p ∈ signGenes, p.1 ≠ R → ∀ x ∈ fileGenes, x ∉ p.2) →
      guessGencodeVersion fileGenes signGenes = some R) := by
  constructor
  · intro hne
    have hdne : diffsOf fileGenes signGenes ≠ [] := by
      intro hc
      apply hne
      simpa [diffsOf] using hc
    cases hs : (pySort (fun a b => diffLe b a)
        (diffsOf fileGenes signGenes)).head? with
    | none =>
      exfalso
      apply hdne
      have hnil : pySort (fun a b => diffLe b a)
          (diffsOf fileGenes signGenes) = [] := by
        exact List.head?_eq_none_iff.mp hs
      have hperm := pySort_perm (fun a b : Nat × PyStr => diffLe b a)
        (diffsOf fileGenes signGenes)
      rw [hnil] at hperm
      exact hperm.symm.eq_nil
    | some m =>
      refine ⟨m.1, m.2, ?_, ?_, ?_⟩
      · simp [guessGencodeVersion, hs]
      · rw [Prod.mk.eta]
        exact pySort_head_mem hs
      · intro p hp
        have hle := pySort_head_le diffLe_isLinB.flip hs p hp
        have hfst := pairLe_fst hle
        simpa [natLe] using hfst
  · intro R S hnd hmem hSne hiff hothers
    have hmemd : (((interList fileGenes S).length, R) : Nat × PyStr) ∈
        diffsOf fileGenes signGenes := by
      have := List.mem_map_of_mem
        (fun p : PyStr × List PyStr =>
          ((interList fileGenes p.2).length, p.1)) hmem
      exact this
    have hcpos : 0 < (interList fileGenes S).length := by
      rcases List.exists_mem_of_ne_nil S hSne with ⟨s, hsS⟩
      have hsf : s ∈ fileGenes := (hiff s).mpr hsS
      have hsi : s ∈ interList fileGenes S := by
        simp [interList, List.mem_filter, hsf, hsS]
      exact List.length_pos.mpr (fun he => by rw [he] at hsi; simp at hsi)
    have hmin : ∀ q ∈ diffsOf fileGenes signGenes,
        diffLe q ((interList fileGenes S).length, R) = true := by
      intro q hq
      rcases List.mem_map.mp hq with ⟨p, hpmem, hpe⟩
      by_cases hpR : p.1 = R
      · have hS2 : p.2 = S := nodupKeys_val_eq signGenes hnd R p.2 S
          (by rw [← hpR, Prod.mk.eta]; exact hpmem) hmem
        have hqe : q = ((interList fileGenes S).length, R) := by
          rw [← hpe, hpR, hS2]
        rw [hqe]
        exact diffLe_isLinB.refl _
      · have hzero : interList fileGenes p.2 = [] := by
          unfold interList
          rw [List.filter_eq_nil_iff]
          intro a ha
          have := hothers p hpmem hpR a ha
          simp [this]
        have hq1 : q.1 = 0 := by
          rw [← hpe, hzero]
          rfl
        show diffLe q _ = true
        unfold diffLe pairLe
        have ht : natLe q.1 (interList fileGenes S).length = true := by
          simp [natLe, hq1]
        have hf : natLe (interList fileGenes S).length q.1 = false := by
          simp only [natLe, hq1, decide_eq_false_iff_not]
          omega
        simp [ht, hf]
    have hhead := pySort_head_eq diffLe_isLinB.flip hmemd hmin
    simp [guessGencodeVersion, hhead]

/-- C4 counterexample: with release a having an empty unique set and
release b having unique set x, the empty input set equals a's unique set
and avoids b's unique set, yet the guesser returns b: the reverse sort
breaks the 0-versus-0 tie by the release name, descending. -/
theorem guessGencodeVersion_counterexample :
    guessGencodeVersion [] [("a".toList, []), ("b".toList, ["x".toList])] =
      some "b".toList ∧
    some "b".toList ≠ some "a".toList ∧
    (∀ x, x ∈ ([] : List PyStr) ↔ x ∈ ([] : List PyStr)) ∧
    (∀ p ∈ [("a".toList, ([] : List PyStr)), ("b".toList, ["x".toList])],
      p.1 ≠ "a".toList → ∀ x ∈ ([] : List PyStr), x ∉ p.2) :=
  ⟨rfl, by decide, fun x => Iff.rfl, by simp⟩

/-- C4 witness: with input exactly r1's unique set, the guesser returns
r1. -/
theorem guessGencodeVersion_spec_witness :
    (([("r1".toList, ["A".toList]), ("r2".toList, ["B".toList])].map
        (fun p : PyStr × List PyStr => p.1)).Nodup ∧
      ("r1".toList, ["A".toList]) ∈
        [("r1".toList, ["A".toList]), ("r2".toList, ["B".toList])] ∧
      (["A".toList] : List PyStr) ≠ [] ∧
      (∀ x, x ∈ ["A".toList] ↔ x ∈ ["A".toList]) ∧
      (∀ p ∈ [("r1".toList, ["A".toList]), ("r2".toList, ["B".toList])],
        p.1 ≠ "r1".toList → ∀ x ∈ ["A".toList], x ∉ p.2)) ∧
    guessGencodeVersion ["A".toList]
      [("r1".toList, ["A".toList]), ("r2".toList, ["B".toList])] =
      some "r1".toList :=
  ⟨⟨by decide, by decide, by decide, fun x => Iff.rfl, by decide⟩,
    (guessGencodeVersion_spec ["A".toList]
      [("r1".toList, ["A".toList]), ("r2".toList, ["B".toList])]).2
      "r1".toList ["A".toList] (by decide) (by decide) (by decide)
      (fun x => Iff.rfl) (by decide)⟩

/-- C5: a release R with an empty unique set is scored 0 (its intersection
with any input is empty), and the guesser returns R only if every release
in the table scores 0. -/
theorem guessGencodeVersion_empty_release (fileGenes : List PyStr)
    (signGenes : List (PyStr × List PyStr)) (R : PyStr)
    (hnd : (signGenes.map Prod.fst).Nodup)
    (hmem : (R, ([] : List PyStr)) ∈ signGenes) :
    interList fileGenes [] = [] ∧
    (guessGencodeVersion fileGenes signGenes = some R →
      ∀ p ∈ signGenes, interList fileGenes p.2 = []) := by
  constructor
  · simp [interList]
  · intro hg p hp
    unfold guessGencodeVersion at hg
    rcases Option.map_eq_some'.mp hg with ⟨m, hm, hm2⟩
    have hmmem := pySort_head_mem hm
    rcases List.mem_map.mp hmmem with ⟨pm, hpm, hpme⟩
    have hpm1 : pm.1 = R := by
      rw [← hm2, ← hpme]
    have hpm2 : pm.2 = [] := nodupKeys_val_eq signGenes hnd R pm.2 []
      (by rw [← hpm1, Prod.mk.eta]; exact hpm) hmem
    have hm1 : m.1 = 0 := by
      rw [← hpme, hpm2]
      simp [interList]
    have hq : ((interList fileGenes p.2).length, p.1) ∈
        diffsOf fileGenes signGenes := by
      have := List.mem_map_of_mem
        (fun p : PyStr × List PyStr =>
          ((interList fileGenes p.2).length, p.1)) hp
      exact this
    have hle := pySort_head_le diffLe_isLinB.flip hm _ hq
    have hfst := pairLe_fst hle
    simp only [natLe, hm1, decide_eq_true_eq] at hfst
    have hlen : (interList fileGenes p.2).length = 0 := by omega
    exact List.length_eq_zero.mp hlen

/-- C5 witness: concrete table where release z has an empty unique set. -/
theorem guessGencodeVersion_empty_release_witness :
    ((([("a".toList, ["A".toList]), ("z".toList, [])].map
        (fun p : PyStr × List PyStr => p.1)).Nodup ∧
      ("z".toList, ([] : List PyStr)) ∈
        [("a".toList, ["A".toList]), ("z".toList, [])]) ∧
     (interList ["A".toList] [] = [] ∧
      (guessGencodeVersion ["A".toList]
          [("a".toList, ["A".toList]), ("z".toList, [])] = some "z".toList →
        ∀ p ∈ [("a".toList, ["A".toList]), ("z".toList, [])],
          interList ["A".toList] p.2 = []))) :=
  ⟨⟨by decide, by decide⟩,
    guessGencodeVersion_empty_release ["A".toList]
      [("a".toList, ["A".toList]), ("z".toList, [])] "z".toList
      (by decide) (by decide)⟩

/-- Python `str.rstrip("\n")`: drop trailing newline characters. -/
def pyRstripNl (s : PyStr) : PyStr :=
  (s.reverse.dropWhile (fun c => c == '\n')).reverse

/-- One output line of `writeUniqs` (genes.py:282-287):
the formatted string of `ofh.write("%s\t%s\n" % (key, "|".join(vals)))`. -/
def writeUniqLine (key : PyStr) (vals : List PyStr) : PyStr :=
  key ++ '\t' :: (List.intercalate ['|'] vals ++ ['\n'])

/-- Model of `writeUniqs` (genes.py:282-287): one line per release, in dict
order. -/
def writeUniqs (dictSet : List (PyStr × List PyStr)) : List PyStr :=
  dictSet.map (fun p => writeUniqLine p.1 p.2)

/-- Python dict assignment `d[k] = v` on the association-list model:
overwrite in place when the key exists, else append. -/
def dictAssign (d : List (PyStr × List PyStr)) (k : PyStr) (v : List PyStr) :
    List (PyStr × List PyStr) :=
  if d.any (fun p => p.1 == k) then
    d.map (fun p => if p.1 == k then (p.1, v) else p)
  else d ++ [(k, v)]

/-- One line of `parseSignatures` (genes.py:58-63): skip `#` comment lines,
strip the trailing newline, unpack exactly two tab-separated fields
(Python raises otherwise) and split the second field on pipes. -/
def parseSigLine (line : PyStr) :
    Except String (Option (PyStr × List PyStr)) :=
  if line.head? == some '#' then Except.ok none
  else
    match (pyRstripNl line).splitOn '\t' with
    | [version, geneIds] => Except.ok (some (version, geneIds.splitOn '|'))
    | _ => Except.error "ValueError"

/-- One fold step of `parseSignatures`: on a parsed line store
`verToGenes[version] = geneIds`. -/
def parseSigStep (verToGenes : List (PyStr × List PyStr)) (line : PyStr) :
    Except String (List (PyStr × List PyStr)) :=
  match parseSigLine line with
  | Except.error e => Except.error e
  | Except.ok none => Except.ok verToGenes
  | Except.ok (some (v, g)) => Except.ok (dictAssign verToGenes v g)

/-- Model of `parseSignatures` (genes.py:50-64): fold the lines of the
signature file into the `verToGenes` dict. -/
def parseSignatures (lines : List PyStr) :
    Except String (List (PyStr × List PyStr)) :=
  lines.foldlM parseSigStep []

theorem mem_intersperse_cases {α : Type} (sep : List α) (L : List (List α))
    (x : List α) (h : x ∈ L.intersperse sep) : x ∈ L ∨ x = sep := by
  induction L with
  | nil => simp [List.intersperse] at h
  | cons a as ih =>
    cases as with
    | nil =>
      simp at h
      simp [h]
    | cons b bs =>
      rw [List.intersperse_cons₂] at h
      rcases List.mem_cons.mp h with h | h
      · left; simp [h]
      · rcases List.mem_cons.mp h with h | h
        · right; exact h
        · rcases ih h with h2 | h2
          · left; exact List.mem_cons_of_mem a h2
          · right; exact h2

theorem not_mem_intercalate {c : Char} {sep : PyStr} (vs : List PyStr)
    (hsep : c ∉ sep) (hv : ∀ v ∈ vs, c ∉ v) :
    c ∉ List.intercalate sep vs := by
  intro hmem
  have : c ∈ (vs.intersperse sep).flatten := by
    have he : List.intercalate sep vs = (vs.intersperse sep).flatten := by
      simp [List.intercalate]
    rwa [he] at hmem
  rcases List.mem_flatten.mp this with ⟨l, hl, hcl⟩
  rcases mem_intersperse_cases sep vs l hl with h | h
  · exact hv l h hcl
  · exact hsep (h ▸ hcl)

theorem dropWhile_nl_eq_self (t : PyStr) (ht : '\n' ∉ t) :
    t.dropWhile (fun c => c == '\n') = t := by
  cases t with
  | nil => rfl
  | cons a t2 =>
    rw [List.dropWhile_cons]
    have hne : ¬((a == '\n') = true) := by
      simp only [beq_iff_eq]
      intro he
      exact ht (he ▸ List.mem_cons_self a t2)
    simp [hne]

theorem pyRstripNl_append_nl (s : PyStr) (h : '\n' ∉ s) :
    pyRstripNl (s ++ ['\n']) = s := by
  unfold pyRstripNl
  rw [List.reverse_append]
  simp only [List.reverse_cons, List.reverse_nil, List.nil_append,
    List.singleton_append]
  rw [List.dropWhile_cons]
  simp only [beq_self_eq_true, if_true]
  rw [dropWhile_nl_eq_self s.reverse (by simpa using h)]
  exact List.reverse_reverse s

theorem intercalate_pair (x : Char) (a b : PyStr) :
    List.intercalate [x] [a, b] = a ++ x :: b := by
  simp [List.intercalate]

theorem parseSigLine_writeUniqLine (k : PyStr) (vs : List PyStr)
    (hk : '\t' ∉ k ∧ '\n' ∉ k ∧ k.head? ≠ some '#')
    (hvs : vs ≠ [])
    (hv : ∀ v ∈ vs, '\t' ∉ v ∧ '|' ∉ v ∧ '\n' ∉ v) :
    parseSigLine (writeUniqLine k vs) = Except.ok (some (k, vs)) := by
  have hJt : '\t' ∉ List.intercalate ['|'] vs := by
    refine not_mem_intercalate vs (by decide) ?_
    intro v hvm
    exact (hv v hvm).1
  have hJn : '\n' ∉ List.intercalate ['|'] vs := by
    refine not_mem_intercalate vs (by decide) ?_
    intro v hvm
    exact (hv v hvm).2.2
  have hhead : (writeUniqLine k vs).head? ≠ some '#' := by
    unfold writeUniqLine
    cases k with
    | nil => simp
    | cons c k2 =>
      simp only [List.cons_append, List.head?_cons]
      intro he
      exact hk.2.2 (by simpa using he)
  have hline : writeUniqLine k vs =
      (k ++ '\t' :: List.intercalate ['|'] vs) ++ ['\n'] := by
    unfold writeUniqLine
    simp [List.append_assoc]
  have hstrip : pyRstripNl (writeUniqLine k vs) =
      k ++ '\t' :: List.intercalate ['|'] vs := by
    rw [hline]
    refine pyRstripNl_append_nl _ ?_
    intro hmem
    rcases List.mem_append.mp hmem with hmem | hmem
    · exact hk.2.1 hmem
    · rcases List.mem_cons.mp hmem with hmem | hmem
      · exact absurd hmem (by decide)
      · exact hJn hmem
  have hsplit : (k ++ '\t' :: List.intercalate ['|'] vs).splitOn '\t' =
      [k, List.intercalate ['|'] vs] := by
    rw [← intercalate_pair '\t' k (List.intercalate ['|'] vs)]
    apply List.splitOn_intercalate
    · intro l hl
      rcases List.mem_cons.mp hl with hl | hl
      · rw [hl]; exact hk.1
      · rcases List.mem_cons.mp hl with hl | hl
        · rw [hl]; exact hJt
        · simp at hl
    · simp
  have hpipes : (List.intercalate ['|'] vs).splitOn '|' = vs := by
    apply List.splitOn_intercalate
    · intro l hl
      exact (hv l hl).2.1
    · exact hvs
  unfold parseSigLine
  rw [if_neg (by simpa using hhead)]
  rw [hstrip, hsplit]
  simp [hpipes]

theorem dictAssign_not_mem (d : List (PyStr × List PyStr)) (k : PyStr)
    (v : List PyStr) (h : k ∉ d.map Prod.fst) :
    dictAssign d k v = d ++ [(k, v)] := by
  unfold dictAssign
  have hany : d.any (fun p => p.1 == k) = false := by
    rw [List.any_eq_false]
    intro p hp
    simp only [beq_iff_eq]
    intro he
    exact h (he ▸ List.mem_map_of_mem Prod.fst hp)
  simp [hany]

theorem parseSignatures_writeUniqs_aux (d : List (PyStr × List PyStr)) :
    ∀ acc : List (PyStr × List PyStr),
    (d.map Prod.fst).Nodup →
    (∀ k ∈ acc.map Prod.fst, k ∉ d.map Prod.fst) →
    (∀ p ∈ d, '\t' ∉ p.1 ∧ '\n' ∉ p.1 ∧ p.1.head? ≠ some '#') →
    (∀ p ∈ d, p.2 ≠ [] ∧ ∀ v ∈ p.2, '\t' ∉ v ∧ '|' ∉ v ∧ '\n' ∉ v) →
    (writeUniqs d).foldlM parseSigStep acc = Except.ok (acc ++ d) := by
  induction d with
  | nil =>
    intro acc _ _ _ _
    simp only [writeUniqs, List.map_nil, List.foldlM_nil, List.append_nil]
    rfl
  | cons p ps ih =>
    intro acc hnd hdisj hkeys hvals
    simp only [List.map_cons, List.nodup_cons] at hnd
    have hline : parseSigLine (writeUniqLine p.1 p.2) =
        Except.ok (some (p.1, p.2)) := by
      refine parseSigLine_writeUniqLine p.1 p.2
        (hkeys p (List.mem_cons_self p ps))
        (hvals p (List.mem_cons_self p ps)).1
        (hvals p (List.mem_cons_self p ps)).2
    have hstep : parseSigStep acc (writeUniqLine p.1 p.2) =
        Except.ok (acc ++ [p]) := by
      unfold parseSigStep
      rw [hline]
      show Except.ok (dictAssign acc p.1 p.2) = Except.ok (acc ++ [p])
      rw [dictAssign_not_mem acc p.1 p.2
        (fun hmem => hdisj p.1 hmem (List.mem_cons_self p.1 (ps.map Prod.fst)))]
    have hrest : (writeUniqs ps).foldlM parseSigStep (acc ++ [p]) =
        Except.ok ((acc ++ [p]) ++ ps) := by
      refine ih (acc ++ [p]) hnd.2 ?_ ?_ ?_
      · intro k hk
        rw [List.map_append] at hk
        rcases List.mem_append.mp hk with hk | hk
        · intro hk2
          exact hdisj k hk (List.mem_cons_of_mem p.1 hk2)
        · simp only [List.map_cons, List.map_nil, List.mem_singleton] at hk
          rw [hk]
          exact hnd.1
      · intro q hq
        exact hkeys q (List.mem_cons_of_mem p hq)
      · intro q hq
        exact hvals q (List.mem_cons_of_mem p hq)
    have hw : writeUniqs (p :: ps) =
        writeUniqLine p.1 p.2 :: writeUniqs ps := rfl
    rw [hw, List.foldlM_cons, hstep]
    show (writeUniqs ps).foldlM parseSigStep (acc ++ [p]) = _
    rw [hrest]
    simp

/-- C3 (amended): writing a release→set mapping with `writeUniqs` and
reading it back with `parseSignatures` is the identity, provided every
release's set is non-empty and keys and identifiers avoid the format's
separator characters (tab, pipe, newline; keys not starting with `#`).
A release whose set is empty is NOT restored as empty: it comes back as
the singleton containing the empty string, see the counterexample. -/
theorem parseSignatures_writeUniqs (d : List (PyStr × List PyStr))
    (hnd : (d.map Prod.fst).Nodup)
    (hkeys : ∀ p ∈ d, '\t' ∉ p.1 ∧ '\n' ∉ p.1 ∧ p.1.head? ≠ some '#')
    (hvals : ∀ p ∈ d, p.2 ≠ [] ∧ ∀ v ∈ p.2, '\t' ∉ v ∧ '|' ∉ v ∧ '\n' ∉ v) :
    parseSignatures (writeUniqs d) = Except.ok d := by
  unfold parseSignatures
  have := parseSignatures_writeUniqs_aux d [] hnd (by simp) hkeys hvals
  simpa using this

/-- C3 witness: a concrete two-release mapping round-trips. -/
theorem parseSignatures_writeUniqs_witness :
    ((exDict1.map Prod.fst).Nodup ∧
     (∀ p ∈ exDict1, '\t' ∉ p.1 ∧ '\n' ∉ p.1 ∧ p.1.head? ≠ some '#') ∧
     (∀ p ∈ exDict1, p.2 ≠ [] ∧ ∀ v ∈ p.2, '\t' ∉ v ∧ '|' ∉ v ∧ '\n' ∉ v)) ∧
    parseSignatures (writeUniqs exDict1) = Except.ok exDict1 :=
  ⟨⟨by decide, by decide, by decide⟩,
    parseSignatures_writeUniqs exDict1 (by decide) (by decide) (by decide)⟩

/-- C3 counterexample: a release with an empty unique set does not
round-trip: `"|".join([])` writes an empty field, and splitting the empty
field on `|` yields the singleton list containing the empty string, so the
release comes back mapped to the set containing the empty string rather
than to the empty set. -/
theorem parseSignatures_writeUniqs_counterexample :
    parseSignatures (writeUniqs [(['r'], [])]) =
      Except.ok [(['r'], [([] : PyStr)])] ∧
    ([(['r'], [([] : PyStr)])] : List (PyStr × List PyStr)) ≠
      [(['r'], [])] :=
  ⟨rfl, by decide⟩

/-- A `(transLen, start, end, strand, geneId)` tuple as collected by
`bedToJson` for each BED row. -/
abbrev TransTup := Int × Int × Int × PyStr × PyStr

/-- A `(start, end, strand, symbol)` tuple of the spatial index. -/
abbrev LocTup := Int × Int × PyStr × PyStr

/-- Python comparison of `(transLen, start, end, strand, geneId)` tuples. -/
def transTupLe : TransTup → TransTup → Bool :=
  pairLe intLe (pairLe intLe (pairLe intLe (pairLe pyStrLe pyStrLe)))

theorem transTupLe_isLinB : IsLinB transTupLe :=
  pairLe_isLinB intLe_isLinB (pairLe_isLinB intLe_isLinB
    (pairLe_isLinB intLe_isLinB (pairLe_isLinB pyStrLe_isLinB pyStrLe_isLinB)))

/-- Python comparison of `(start, end, strand, symbol)` tuples. -/
def locTupLe : LocTup → LocTup → Bool :=
  pairLe intLe (pairLe intLe (pairLe pyStrLe pyStrLe))

theorem locTupLe_isLinB : IsLinB locTupLe :=
  pairLe_isLinB intLe_isLinB (pairLe_isLinB intLe_isLinB
    (pairLe_isLinB pyStrLe_isLinB pyStrLe_isLinB))

/-- Value of a decimal digit string. -/
def digitsVal (ds : PyStr) : Nat :=
  ds.foldl (fun n c => 10 * n + (c.toNat - 48)) 0

/-- Python `int(s)` on the decimal strings this code parses: an optional
minus sign followed by at least one digit; anything else raises. -/
def pyInt (s : PyStr) : Option Int :=
  match s with
  | '-' :: ds =>
    if ds ≠ [] ∧ ds.all Char.isDigit then some (-(digitsVal ds : Int))
    else none
  | ds =>
    if ds ≠ [] ∧ ds.all Char.isDigit then some ((digitsVal ds : Int))
    else none

/-- Update `d[k]` by `f`, starting from `dflt` when the key is absent: the
association-list form of the `defaultdict` and `setdefault` mutations. -/
def dictUpd {β : Type} (d : List (PyStr × β)) (k : PyStr) (dflt : β)
    (f : β → β) : List (PyStr × β) :=
  if d.any (fun p => p.1 == k) then
    d.map (fun p => if p.1 == k then (p.1, f p.2) else p)
  else d ++ [(k, f dflt)]

/-- First pass of `bedToJson` (genes.py:333-340): index the
`(transLen, start, end, strand, geneId)` tuples by symbol, then
chromosome.  A row with fewer than six fields, a gene ID missing from the
symbol table, or an unparseable coordinate raises. -/
def buildBySym (geneToSym : List (PyStr × PyStr)) (rows : List (List PyStr)) :
    Except String (List (PyStr × List (PyStr × List TransTup))) :=
  rows.foldlM
    (fun bySym row =>
      match row with
      | chrom :: startS :: endS :: geneId :: _score :: strand :: _ =>
        match List.lookup geneId geneToSym with
        | none => Except.error "KeyError"
        | some sym =>
          match pyInt startS, pyInt endS with
          | some start, some stop =>
            Except.ok (dictUpd bySym sym []
              (fun chromDict => dictUpd chromDict chrom []
                (fun l => l ++ [(stop - start, start, stop, strand, geneId)])))
          | _, _ => Except.error "ValueError"
      | _ => Except.error "ValueError")
    []

/-- The per-(symbol, chromosome) reduction of `bedToJson`
(genes.py:345-346): `transList.sort(reverse=True)` then `transList[0]`,
i.e. the greatest tuple: longest transcript first, ties broken by the
later tuple fields, descending. -/
def pickLongest (transList : List TransTup) : Option TransTup :=
  (pySort (fun a b => transTupLe b a) transList).head?

/-- Second pass of `bedToJson` (genes.py:342-347): for every symbol and
chromosome keep the longest transcript and append its
`(start, end, strand, symbol)` tuple to the chromosome's list. -/
def buildSymLocs (bySym : List (PyStr × List (PyStr × List TransTup))) :
    List (PyStr × List LocTup) :=
  bySym.foldl
    (fun symLocs p =>
      p.2.foldl
        (fun symLocs q =>
          match pickLongest q.2 with
          | some (_, start, stop, strand, _) =>
            dictUpd symLocs q.1 [] (fun l => l ++ [(start, stop, strand, p.1)])
          | none => symLocs)
        symLocs)
    []

/-- Model of `bedToJson` (genes.py:328-359): group the BED rows by symbol
and chromosome, keep one locus per symbol and chromosome, and sort each
chromosome's tuple list ascending; the returned chromosome→tuples mapping
is the structure serialized to json. -/
def bedToJson (geneToSym : List (PyStr × PyStr)) (rows : List (List PyStr)) :
    Except String (List (PyStr × List LocTup)) :=
  match buildBySym geneToSym rows with
  | Except.error e => Except.error e
  | Except.ok bySym =>
    Except.ok ((buildSymLocs bySym).map (fun p => (p.1, pySort locTupLe p.2)))

/-- C8 (amended): among several loci collected for the same symbol on the
same chromosome, `bedToJson` retains exactly one: the maximum of the
`(transLen, start, end, strand, geneId)` tuples, i.e. greatest transcript
length with ties broken by the GREATEST of the subsequent fields (the
reverse sort takes the largest full tuple), not the ascending order the
claim states; see the counterexample. -/
theorem bedToJson_keeps_longest (geneToSym : List (PyStr × PyStr))
    (rows : List (List PyStr))
    (bySym : List (PyStr × List (PyStr × List TransTup)))
    (sym : PyStr) (chromDict : List (PyStr × List TransTup)) (chrom : PyStr)
    (transList : List TransTup)
    (hb : buildBySym geneToSym rows = Except.ok bySym)
    (hs : (sym, chromDict) ∈ bySym) (hc : (chrom, transList) ∈ chromDict)
    (hne : transList ≠ []) :
    ∃ t, pickLongest transList = some t ∧ t ∈ transList ∧
      ∀ u ∈ transList, transTupLe u t = true := by
  cases hp : (pySort (fun a b => transTupLe b a) transList).head? with
  | none =>
    exfalso
    apply hne
    have hnil : pySort (fun a b => transTupLe b a) transList = [] :=
      List.head?_eq_none_iff.mp hp
    have hperm := pySort_perm (fun a b : TransTup => transTupLe b a) transList
    rw [hnil] at hperm
    exact hperm.symm.eq_nil
  | some t =>
    refine ⟨t, hp, pySort_head_mem hp, ?_⟩
    intro u hu
    exact pySort_head_le transTupLe_isLinB.flip hp u hu

/-- C8 counterexample: TP53 has two loci of equal length 100 on chr17,
one starting at 0 and one at 50; the spatial index keeps the locus with
the GREATER start (50), not the ascending tie-break the claim states. -/
theorem bedToJson_tiebreak_counterexample :
    bedToJson [("g1".toList, "TP53".toList), ("g2".toList, "TP53".toList)]
      [["chr17".toList, "0".toList, "100".toList, "g1".toList,
        "0".toList, "+".toList],
       ["chr17".toList, "50".toList, "150".toList, "g2".toList,
        "0".toList, "+".toList]] =
      Except.ok [("chr17".toList,
        [((50 : Int), (150 : Int), "+".toList, "TP53".toList)])] ∧
    ((50 : Int), (150 : Int), "+".toList, "TP53".toList) ≠
      ((0 : Int), (100 : Int), "+".toList, "TP53".toList) :=
  ⟨rfl, by decide⟩

/-- C8 witness: a concrete run of the grouping pass feeding the reduction. -/
theorem bedToJson_keeps_longest_witness :
    (buildBySym [("g1".toList, "TP53".toList), ("g2".toList, "TP53".toList)]
      [["chr17".toList, "0".toList, "100".toList, "g1".toList,
        "0".toList, "+".toList],
       ["chr17".toList, "50".toList, "150".toList, "g2".toList,
        "0".toList, "+".toList]] =
      Except.ok [("TP53".toList,
        [("chr17".toList,
          [((100 : Int), (0 : Int), (100 : Int), "+".toList, "g1".toList),
           ((100 : Int), (50 : Int), (150 : Int), "+".toList, "g2".toList)])])]) ∧
    (∃ t, pickLongest
        [((100 : Int), (0 : Int), (100 : Int), "+".toList, "g1".toList),
         ((100 : Int), (50 : Int), (150 : Int), "+".toList, "g2".toList)] =
        some t ∧
      t ∈ [((100 : Int), (0 : Int), (100 : Int), "+".toList, "g1".toList),
           ((100 : Int), (50 : Int), (150 : Int), "+".toList, "g2".toList)] ∧
      ∀ u ∈ [((100 : Int), (0 : Int), (100 : Int), "+".toList, "g1".toList),
             ((100 : Int), (50 : Int), (150 : Int), "+".toList, "g2".toList)],
        transTupLe u t = true) :=
  ⟨rfl,
    bedToJson_keeps_longest
      [("g1".toList, "TP53".toList), ("g2".toList, "TP53".toList)]
      [["chr17".toList, "0".toList, "100".toList, "g1".toList,
        "0".toList, "+".toList],
       ["chr17".toList, "50".toList, "150".toList, "g2".toList,
        "0".toList, "+".toList]]
      [("TP53".toList,
        [("chr17".toList,
          [((100 : Int), (0 : Int), (100 : Int), "+".toList, "g1".toList),
           ((100 : Int), (50 : Int), (150 : Int), "+".toList, "g2".toList)])])]
      "TP53".toList
      [("chr17".toList,
        [((100 : Int), (0 : Int), (100 : Int), "+".toList, "g1".toList),
         ((100 : Int), (50 : Int), (150 : Int), "+".toList, "g2".toList)])]
      "chr17".toList
      [((100 : Int), (0 : Int), (100 : Int), "+".toList, "g1".toList),
       ((100 : Int), (50 : Int), (150 : Int), "+".toList, "g2".toList)]
      rfl (by decide) (by decide) (by decide)⟩

/-- C9: every chromosome's tuple sequence in the constructed spatial index
is pairwise sorted in the full tuple order — in particular non-decreasing
in start position, ties decided by the remaining tuple fields. -/
theorem bedToJson_sorted (geneToSym : List (PyStr × PyStr))
    (rows : List (List PyStr)) (out : List (PyStr × List LocTup))
    (chrom : PyStr) (locs : List LocTup)
    (hout : bedToJson geneToSym rows = Except.ok out)
    (hmem : (chrom, locs) ∈ out) :
    locs.Pairwise (fun a b => locTupLe a b = true ∧ a.1 ≤ b.1) := by
  unfold bedToJson at hout
  cases hb : buildBySym geneToSym rows with
  | error e =>
    rw [hb] at hout
    exact absurd hout (by simp)
  | ok bySym =>
    rw [hb] at hout
    have hout2 : (buildSymLocs bySym).map
        (fun p => (p.1, pySort locTupLe p.2)) = out := Except.ok.inj hout
    rw [← hout2] at hmem
    rcases List.mem_map.mp hmem with ⟨p, _, he⟩
    have hlocs : locs = pySort locTupLe p.2 := (congrArg Prod.snd he).symm
    rw [hlocs]
    have hpw := pySort_pairwise locTupLe_isLinB p.2
    refine hpw.imp ?_
    intro a b hab
    refine ⟨hab, ?_⟩
    have hab2 : pairLe intLe (pairLe intLe (pairLe pyStrLe pyStrLe)) a b =
        true := hab
    have := pairLe_fst hab2
    simpa [intLe] using this

/-- C9 witness: a concrete index with two genes on one chromosome comes
out sorted by start. -/
theorem bedToJson_sorted_witness :
    (bedToJson [("g1".toList, "S1".toList), ("g2".toList, "S2".toList)]
      [["chr1".toList, "10".toList, "20".toList, "g1".toList,
        "0".toList, "+".toList],
       ["chr1".toList, "0".toList, "5".toList, "g2".toList,
        "0".toList, "-".toList]] =
      Except.ok [("chr1".toList,
        [((0 : Int), (5 : Int), "-".toList, "S2".toList),
         ((10 : Int), (20 : Int), "+".toList, "S1".toList)])] ∧
     ("chr1".toList,
        [((0 : Int), (5 : Int), "-".toList, "S2".toList),
         ((10 : Int), (20 : Int), "+".toList, "S1".toList)]) ∈
       [("chr1".toList,
        [((0 : Int), (5 : Int), "-".toList, "S2".toList),
         ((10 : Int), (20 : Int), "+".toList, "S1".toList)])]) ∧
    ([((0 : Int), (5 : Int), "-".toList, "S2".toList),
      ((10 : Int), (20 : Int), "+".toList, "S1".toList)] :
        List LocTup).Pairwise (fun a b => locTupLe a b = true ∧ a.1 ≤ b.1) :=
  ⟨⟨rfl, by decide⟩,
    bedToJson_sorted [("g1".toList, "S1".toList), ("g2".toList, "S2".toList)]
      [["chr1".toList, "10".toList, "20".toList, "g1".toList,
        "0".toList, "+".toList],
       ["chr1".toList, "0".toList, "5".toList, "g2".toList,
        "0".toList, "-".toList]]
      [("chr1".toList,
        [((0 : Int), (5 : Int), "-".toList, "S2".toList),
         ((10 : Int), (20 : Int), "+".toList, "S1".toList)])]
      "chr1".toList
      [((0 : Int), (5 : Int), "-".toList, "S2".toList),
       ((10 : Int), (20 : Int), "+".toList, "S1".toList)]
      rfl (by decide)⟩

/-- Python comparison of the `(score, row)` pairs grouped per gene:
numeric rank first, then the full row tuple lexicographically. -/
def scoreRowLe : (Nat × List PyStr) → (Nat × List PyStr) → Bool :=
  pairLe natLe (listLexLe pyStrLe)

theorem scoreRowLe_isLinB : IsLinB scoreRowLe :=
  pairLe_isLinB natLe_isLinB (listLexLe_isLinB pyStrLe_isLinB)

/-- One grouping step of `iterGencodeBed` (genes.py:168-173): look up the
row's transcript ID (field 1) in the transcript→gene table, extract the
numeric part of the gene ID as the score (`int` over the digit characters;
Python raises when there is none), and append `(score, row)` to the
gene's bucket (`defaultdict(list)`). -/
def gencodeStep (transToGene : List (PyStr × PyStr))
    (buckets : List (PyStr × List (Nat × List PyStr))) (row : List PyStr) :
    Except String (List (PyStr × List (Nat × List PyStr))) :=
  match row.get? 1 with
  | none => Except.error "IndexError"
  | some transId =>
    match List.lookup transId transToGene with
    | none => Except.error "KeyError"
    | some geneId =>
      if (geneId.filter Char.isDigit).isEmpty then Except.error "ValueError"
      else Except.ok (dictUpd buckets geneId []
        (fun l => l ++ [(digitsVal (geneId.filter Char.isDigit), row)]))

/-- The `geneToTransList` dict of `iterGencodeBed` (genes.py:167-173). -/
def geneToTransList (transToGene : List (PyStr × PyStr))
    (rows : List (List PyStr)) :
    Except String (List (PyStr × List (Nat × List PyStr))) :=
  rows.foldlM (gencodeStep transToGene) []

/-- Block-list computation of `iterGencodeBed` (genes.py:180-187): walk the
zipped comma-split exon start/end lists, skip pairs whose start is the
empty trailing entry, and collect the block sizes
(`int(exonEnd) - int(exonStart)`, rendered back to a string) and the block
starts; an unparseable coordinate raises. -/
def buildBlocks : List (PyStr × PyStr) →
    Except String (List PyStr × List PyStr)
  | [] => Except.ok ([], [])
  | (exonStart, exonEnd) :: rest =>
    if exonStart = [] then buildBlocks rest
    else
      match pyInt exonStart, pyInt exonEnd with
      | some s, some e =>
        match buildBlocks rest with
        | Except.ok (blockLens, blockStarts) =>
          Except.ok ((toString (e - s)).toList :: blockLens,
            exonStart :: blockStarts)
        | Except.error err => Except.error err
      | _, _ => Except.error "ValueError"

/-- Output-row construction of `iterGencodeBed` (genes.py:179-189): unpack
the 16 genePred fields of the chosen transcript row (Python raises
otherwise) and emit the BED12+1 row `[chrom, txStart, txEnd, geneId,
score, strand, cdsStart, cdsEnd, exonCount, blockLens, blockStarts,
name2]` with the comma-joined block lists. -/
def mkCanonRow (geneId : PyStr) (row : List PyStr) :
    Except String (List PyStr) :=
  match row with
  | [_binIdx, _name, chrom, strand, txStart, txEnd, cdsStart, cdsEnd,
     exonCount, exonStarts, exonEnds, score, name2, _cdsStartStat,
     _cdsEndStat, _exonFrames] =>
    match buildBlocks ((exonStarts.splitOn ',').zip (exonEnds.splitOn ',')) with
    | Except.ok (blockLens, blockStarts) =>
      Except.ok [chrom, txStart, txEnd, geneId, score, strand, cdsStart,
        cdsEnd, exonCount, List.intercalate [','] blockLens,
        List.intercalate [','] blockStarts, name2]
    | Except.error e => Except.error e
  | _ => Except.error "ValueError"

/-- Selection step of `iterGencodeBed` (genes.py:176-178):
`transList.sort()` then `transList[0]` — the least `(score, row)` pair,
preferring the numerically oldest transcript. -/
def pickCanonical (geneId : PyStr) (transList : List (Nat × List PyStr)) :
    Except String (List PyStr) :=
  match (pySort scoreRowLe transList).head? with
  | none => Except.error "IndexError"
  | some p => mkCanonRow geneId p.2

/-- Model of `iterGencodeBed` (genes.py:161-189): group the raw transcript
rows by gene, then emit one canonical BED row per gene in bucket
(first-appearance) order. -/
def iterGencodeBed (transToGene : List (PyStr × PyStr))
    (rows : List (List PyStr)) : Except String (List (List PyStr)) :=
  match geneToTransList transToGene rows with
  | Except.error e => Except.error e
  | Except.ok buckets => buckets.mapM (fun p => pickCanonical p.1 p.2)

theorem dictUpd_keys_nodup {β : Type} (d : List (PyStr × β)) (k : PyStr)
    (dflt : β) (f : β → β) (h : (d.map Prod.fst).Nodup) :
    ((dictUpd d k dflt f).map Prod.fst).Nodup := by
  unfold dictUpd
  by_cases hany : d.any (fun p => p.1 == k) = true
  · rw [if_pos hany]
    have hkeys : (d.map (fun p => if p.1 == k then (p.1, f p.2) else p)).map
        Prod.fst = d.map Prod.fst := by
      rw [List.map_map]
      refine List.map_congr_left ?_
      intro p _
      by_cases hpk : p.1 = k
      · simp [hpk]
      · simp [hpk]
    rw [hkeys]
    exact h
  · rw [if_neg hany]
    rw [List.map_append]
    simp only [List.map_cons, List.map_nil]
    rw [List.nodup_append]
    refine ⟨h, List.nodup_singleton k, ?_⟩
    intro a ha hb
    simp only [List.mem_singleton] at hb
    rcases List.mem_map.mp ha with ⟨p, hp, he⟩
    refine hany (List.any_eq_true.mpr ⟨p, hp, ?_⟩)
    rw [he, hb]
    exact beq_self_eq_true k

theorem gencodeStep_keys_nodup (transToGene : List (PyStr × PyStr))
    (acc acc2 : List (PyStr × List (Nat × List PyStr))) (row : List PyStr)
    (h : gencodeStep transToGene acc row = Except.ok acc2)
    (hnd : (acc.map Prod.fst).Nodup) : (acc2.map Prod.fst).Nodup := by
  unfold gencodeStep at h
  split at h
  · exact absurd h (by simp)
  · split at h
    · exact absurd h (by simp)
    · split at h
      · exact absurd h (by simp)
      · have := Except.ok.inj h
        rw [← this]
        exact dictUpd_keys_nodup _ _ _ _ hnd

theorem geneToTransList_aux_nodup (transToGene : List (PyStr × PyStr)) :
    ∀ (rows : List (List PyStr))
      (acc buckets : List (PyStr × List (Nat × List PyStr))),
    (acc.map Prod.fst).Nodup →
    rows.foldlM (gencodeStep transToGene) acc = Except.ok buckets →
    (buckets.map Prod.fst).Nodup := by
  intro rows
  induction rows with
  | nil =>
    intro acc buckets hnd h
    simp only [List.foldlM_nil] at h
    have : acc = buckets := Except.ok.inj h
    rw [← this]
    exact hnd
  | cons r rs ih =>
    intro acc buckets hnd h
    rw [List.foldlM_cons] at h
    cases hstep : gencodeStep transToGene acc r with
    | error e =>
      rw [hstep] at h
      exact absurd h (by simp [Bind.bind, Except.bind])
    | ok acc2 =>
      rw [hstep] at h
      have h2 : rs.foldlM (gencodeStep transToGene) acc2 =
          Except.ok buckets := h
      exact ih acc2 buckets
        (gencodeStep_keys_nodup transToGene acc acc2 r hstep hnd) h2

theorem geneToTransList_keys_nodup (transToGene : List (PyStr × PyStr))
    (rows : List (List PyStr))
    (buckets : List (PyStr × List (Nat × List PyStr)))
    (h : geneToTransList transToGene rows = Except.ok buckets) :
    (buckets.map Prod.fst).Nodup :=
  geneToTransList_aux_nodup transToGene rows [] buckets (by simp) h

theorem mapM_ok_forall2 {α β : Type} (f : α → Except String β) :
    ∀ (l : List α) (out : List β), l.mapM f = Except.ok out →
      List.Forall₂ (fun a b => f a = Except.ok b) l out := by
  intro l
  induction l with
  | nil =>
    intro out h
    simp only [List.mapM_nil] at h
    have : ([] : List β) = out := Except.ok.inj h
    rw [← this]
    exact List.Forall₂.nil
  | cons a as ih =>
    intro out h
    rw [List.mapM_cons] at h
    cases hfa : f a with
    | error e =>
      rw [hfa] at h
      exact absurd h (by simp [Bind.bind, Except.bind])
    | ok b =>
      rw [hfa] at h
      cases hmm : as.mapM f with
      | error e =>
        rw [hmm] at h
        exact absurd h (by simp [Bind.bind, Except.bind, Pure.pure])
      | ok bs =>
        rw [hmm] at h
        have hout : b :: bs = out := by
          have : (Except.ok (b :: bs) : Except String (List β)) =
              Except.ok out := h
          exact Except.ok.inj this
        rw [← hout]
        exact List.Forall₂.cons hfa (ih bs hmm)

theorem forall2_mem_left {α β : Type} {R : α → β → Prop}
    {l1 : List α} {l2 : List β} (h : List.Forall₂ R l1 l2) :
    ∀ a ∈ l1, ∃ b, b ∈ l2 ∧ R a b := by
  induction h with
  | nil =>
    intro a ha
    simp at ha
  | cons hR hrest ih =>
    intro a ha
    rcases List.mem_cons.mp ha with ha | ha
    · rw [ha]
      exact ⟨_, List.mem_cons_self _ _, hR⟩
    · rcases ih a ha with ⟨b, hb, hRb⟩
      exact ⟨b, List.mem_cons_of_mem _ hb, hRb⟩

theorem mkCanonRow_get3 (geneId : PyStr) (row r : List PyStr)
    (h : mkCanonRow geneId row = Except.ok r) : r[3]? = some geneId := by
  unfold mkCanonRow at h
  split at h
  · split at h
    · have := Except.ok.inj h
      rw [← this]
      rfl
    · exact absurd h (by simp)
  · exact absurd h (by simp)

theorem pickCanonical_get3 (geneId : PyStr)
    (transList : List (Nat × List PyStr)) (r : List PyStr)
    (h : pickCanonical geneId transList = Except.ok r) :
    r[3]? = some geneId := by
  unfold pickCanonical at h
  split at h
  · exact absurd h (by simp)
  · exact mkCanonRow_get3 geneId _ r h

theorem countP_zero_aux (g : PyStr) :
    ∀ (bs : List (PyStr × List (Nat × List PyStr))) (out : List (List PyStr)),
    List.Forall₂ (fun p r => pickCanonical p.1 p.2 = Except.ok r) bs out →
    g ∉ bs.map Prod.fst →
    out.countP (fun r => r[3]? == some g) = 0 := by
  intro bs out h
  induction h with
  | nil =>
    intro _
    rfl
  | cons hR hrest ih =>
    rename_i p r bs2 out2
    intro hg
    simp only [List.map_cons, List.mem_cons, not_or] at hg
    rw [List.countP_cons]
    have h3 := pickCanonical_get3 _ _ _ hR
    rw [ih hg.2]
    have hpred : (r[3]? == some g) = false := by
      rw [h3]
      simp only [beq_eq_false_iff_ne, ne_eq, Option.some.injEq]
      intro he
      exact hg.1 he.symm
    simp [hpred]

theorem countP_one_aux (g : PyStr) :
    ∀ (bs : List (PyStr × List (Nat × List PyStr))) (out : List (List PyStr)),
    List.Forall₂ (fun p r => pickCanonical p.1 p.2 = Except.ok r) bs out →
    (bs.map Prod.fst).Nodup →
    (∃ bucket, (g, bucket) ∈ bs) →
    out.countP (fun r => r[3]? == some g) = 1 := by
  intro bs out h
  induction h with
  | nil =>
    intro _ hex
    rcases hex with ⟨bucket, hc⟩
    simp at hc
  | cons hR hrest ih =>
    rename_i p r bs2 out2
    intro hnd hex
    simp only [List.map_cons, List.nodup_cons] at hnd
    rw [List.countP_cons]
    have h3 := pickCanonical_get3 _ _ _ hR
    rcases hex with ⟨bucket, hc⟩
    rcases List.mem_cons.mp hc with hc | hc
    · have hp1 : p.1 = g := by rw [← hc]
      have hzero : out2.countP (fun r => r[3]? == some g) = 0 := by
        refine countP_zero_aux g bs2 out2 hrest ?_
        rw [← hp1]
        exact hnd.1
      rw [hzero]
      have hpred : (r[3]? == some g) = true := by
        rw [h3, hp1]
        exact beq_self_eq_true _
      simp [hpred]
    · have hg2 : g ∈ bs2.map Prod.fst := by
        have : (g, bucket).1 ∈ bs2.map Prod.fst :=
          List.mem_map_of_mem Prod.fst hc
        exact this
      have hone := ih hnd.2 ⟨bucket, hc⟩
      rw [hone]
      have hp1 : p.1 ≠ g := by
        intro he
        exact hnd.1 (he ▸ hg2)
      have hpred : (r[3]? == some g) = false := by
        rw [h3]
        simp only [beq_eq_false_iff_ne, ne_eq, Option.some.injEq]
        exact hp1
      simp [hpred]

/-- C7: for every gene grouped by `iterGencodeBed`, the output contains
exactly one row for that gene (the gene ID sits in output field 3), and
the emitted row is built from the least `(rank, full row)` pair of the
gene's bucket: minimal numeric rank, full-row lexicographic order breaking
rank ties — hence independent of the input row order. -/
theorem iterGencodeBed_canonical (transToGene : List (PyStr × PyStr))
    (rows : List (List PyStr))
    (buckets : List (PyStr × List (Nat × List PyStr)))
    (g : PyStr) (bucket : List (Nat × List PyStr))
    (out : List (List PyStr))
    (hb : geneToTransList transToGene rows = Except.ok buckets)
    (hg : (g, bucket) ∈ buckets)
    (hout : iterGencodeBed transToGene rows = Except.ok out) :
    (∃ p, p ∈ bucket ∧ (∀ q ∈ bucket, scoreRowLe p q = true) ∧
      pickCanonical g bucket = mkCanonRow g p.2) ∧
    out.countP (fun r => r[3]? == some g) = 1 := by
  have hforall : List.Forall₂
      (fun p r => pickCanonical p.1 p.2 = Except.ok r) buckets out := by
    unfold iterGencodeBed at hout
    rw [hb] at hout
    exact mapM_ok_forall2 _ buckets out hout
  obtain ⟨r, _, hr⟩ := forall2_mem_left hforall (g, bucket) hg
  constructor
  · unfold pickCanonical at hr
    cases hp : (pySort scoreRowLe bucket).head? with
    | none =>
      rw [hp] at hr
      exact Except.noConfusion hr
    | some p =>
      refine ⟨p, pySort_head_mem hp,
        pySort_head_le scoreRowLe_isLinB hp, ?_⟩
      unfold pickCanonical
      rw [hp]
  · exact countP_one_aux g buckets out hforall
      (geneToTransList_keys_nodup transToGene rows buckets hb) ⟨bucket, hg⟩

/-- First example genePred row for the C7 witness: transcript tA. -/
def exRow1 : List PyStr :=
  ["0", "tA", "chr1", "+", "10", "20", "10", "20", "1", "10,", "20,",
   "0", "SYM", "none", "none", "-1,"].map String.toList

/-- Second example genePred row for the C7 witness: transcript tB. -/
def exRow2 : List PyStr :=
  ["0", "tB", "chr1", "+", "30", "40", "30", "40", "1", "30,", "40,",
   "0", "SYM", "none", "none", "-1,"].map String.toList

/-- Example transcript→gene table for the C7 witness. -/
def exT2G : List (PyStr × PyStr) :=
  [("tA".toList, "ENSG7".toList), ("tB".toList, "ENSG7".toList)]

/-- C7 witness: two transcripts of one gene; the selector emits exactly
one row for the gene, built from the least `(rank, row)` pair. -/
theorem iterGencodeBed_canonical_witness :
    (geneToTransList exT2G [exRow1, exRow2] =
        Except.ok [("ENSG7".toList, [(7, exRow1), (7, exRow2)])] ∧
     ("ENSG7".toList, [(7, exRow1), (7, exRow2)]) ∈
        [("ENSG7".toList, [(7, exRow1), (7, exRow2)])] ∧
     iterGencodeBed exT2G [exRow1, exRow2] =
        Except.ok [["chr1", "10", "20", "ENSG7", "0", "+", "10", "20",
          "1", "10", "10", "SYM"].map String.toList]) ∧
    ((∃ p, p ∈ [(7, exRow1), (7, exRow2)] ∧
        (∀ q ∈ [(7, exRow1), (7, exRow2)], scoreRowLe p q = true) ∧
        pickCanonical "ENSG7".toList [(7, exRow1), (7, exRow2)] =
          mkCanonRow "ENSG7".toList p.2) ∧
      ([["chr1", "10", "20", "ENSG7", "0", "+", "10", "20", "1", "10",
         "10", "SYM"].map String.toList].countP
        (fun r => r[3]? == some "ENSG7".toList)) = 1) :=
  ⟨⟨rfl, by decide, rfl⟩,
    iterGencodeBed_canonical exT2G [exRow1, exRow2]
      [("ENSG7".toList, [(7, exRow1), (7, exRow2)])]
      "ENSG7".toList [(7, exRow1), (7, exRow2)]
      [["chr1", "10", "20", "ENSG7", "0", "+", "10", "20", "1", "10",
        "10", "SYM"].map String.toList]
      rfl (by decide) rfl⟩
